import Mathlib

/-!
Shallow embedding of the Elementary CLI reconciler
(`src/rs/cli/src/main.rs`): the node graph data model, the mount table,
the breadth-first reconcile loop, the opcode sort, and the per-message
session step with its directive parsing.  Machine integers `i32`/`u32`
are embedded as `Int`/`Nat`: the program never performs arithmetic on
them, so overflow cannot be observed.
-/

namespace Elementary

/-- JSON values, as carried opaquely in node properties
(`serde_json::Value`).  Numbers are restricted to integers: the
reconciler never inspects or computes with property values, so the
choice of number representation is immaterial to its behaviour. -/
inductive JsonValue where
  | null
  | bool (b : Bool)
  | num (n : Int)
  | str (s : String)
  | arr (elems : List JsonValue)
  | obj (fields : List (String × JsonValue))

/-- The node representation received from the wire (`struct NodeRepr`):
`hash: i32`, `kind: String`, `props` (a JSON map, embedded as its entry
list in iteration order), `output_channel: u32`, `children:
Vec<NodeRepr>`. -/
inductive NodeRepr where
  | mk (hash : Int) (kind : String) (props : List (String × JsonValue))
      (output_channel : Nat) (children : List NodeRepr)

def NodeRepr.hash : NodeRepr → Int
  | .mk h _ _ _ _ => h

def NodeRepr.kind : NodeRepr → String
  | .mk _ k _ _ _ => k

def NodeRepr.props : NodeRepr → List (String × JsonValue)
  | .mk _ _ p _ _ => p

def NodeRepr.output_channel : NodeRepr → Nat
  | .mk _ _ _ oc _ => oc

def NodeRepr.children : NodeRepr → List NodeRepr
  | .mk _ _ _ _ cs => cs

/-- The shallow projection stored in the mount table
(`struct ShallowNodeRepr`): children are kept as hashes, not
subtrees. -/
structure ShallowNodeRepr where
  hash : Int
  kind : String
  props : List (String × JsonValue)
  output_channel : Nat
  children : List Int

/-- Rust `fn shallow_clone(node: &NodeRepr) -> ShallowNodeRepr`. -/
def shallow_clone (node : NodeRepr) : ShallowNodeRepr :=
  { hash := node.hash
    kind := node.kind
    props := node.props
    output_channel := node.output_channel
    children := node.children.map NodeRepr.hash }

/-- One wire instruction, i.e. one of the JSON tuples pushed by
`reconcile`: `[0, hash, kind]`, `[2, parent, child, outputChannel]`,
`[3, hash, name, value]`, `[4, [roots...]]`, `[5]`. -/
inductive Instr where
  | create (id : Int) (kind : String)
  | appendChild (parentId : Int) (childId : Int) (outputChannel : Nat)
  | setProperty (id : Int) (name : String) (value : JsonValue)
  | activateRoots (ids : List Int)
  | commit

/-- The integer opcode heading each instruction tuple, the sort key of
the final `sort_by`. -/
def Instr.opcode : Instr → Nat
  | .create _ _ => 0
  | .appendChild _ _ _ => 2
  | .setProperty _ _ _ => 3
  | .activateRoots _ => 4
  | .commit => 5

/-- The mount table (field `node_map: BTreeMap<i32, ShallowNodeRepr>` of
`RuntimeWrapper`), embedded as an association list. -/
abbrev MountTable := List (Int × ShallowNodeRepr)

/-- Key membership test, `node_map.contains_key`. -/
def MountTable.containsKey (t : MountTable) (k : Int) : Bool :=
  t.any (fun e => e.1 == k)

/-- Key insertion, `node_map.insert`; `reconcile` only calls it on keys
that are absent, so the position of the new entry is unobservable. -/
def MountTable.insert (t : MountTable) (k : Int) (v : ShallowNodeRepr) : MountTable :=
  (k, v) :: t

/-- Entry lookup (`node_map.get`), used to state that existing entries
are never rewritten. -/
def MountTable.get? (t : MountTable) (k : Int) : Option ShallowNodeRepr :=
  List.lookup k t

theorem NodeRepr.sizeOf_pos (n : NodeRepr) : 0 < sizeOf n := by
  cases n; simp only [NodeRepr.mk.sizeOf_spec]; omega

theorem sizeOf_map_sum_lt (l : List NodeRepr) : ((l.map sizeOf).sum : Nat) < sizeOf l := by
  induction l with
  | nil => simp
  | cons a t ih => simp only [List.map_cons, List.sum_cons, List.cons.sizeOf_spec]; omega

theorem children_sizeOf_lt (n : NodeRepr) : ((n.children.map sizeOf).sum : Nat) < sizeOf n := by
  cases n with
  | mk h k p oc cs =>
    have := sizeOf_map_sum_lt cs
    simp only [NodeRepr.children, NodeRepr.mk.sizeOf_spec]
    omega

/-- The order in which `reconcile`'s while-loop processes nodes: the
breadth-first queue traversal with the `visited` skip, returning the
first-dequeued occurrence of each hash, in processing order.  This is
exactly the control flow of the loop at `main.rs:78-120`, with the
instruction and table side effects stripped out. -/
def bfsOrder : List NodeRepr → List Int → List NodeRepr
  | [], _ => []
  | n :: queue, visited =>
    if visited.contains n.hash then
      bfsOrder queue visited
    else
      n :: bfsOrder (queue ++ n.children) (n.hash :: visited)
termination_by q _ => (q.map sizeOf).sum
decreasing_by
  · have := NodeRepr.sizeOf_pos n
    simp only [List.map_cons, List.sum_cons]
    omega
  · have := children_sizeOf_lt n
    simp only [List.map_cons, List.sum_cons, List.map_append, List.sum_append]
    omega

/-- The body of `RuntimeWrapper::reconcile`'s while-loop
(`main.rs:78-120`): dequeue, skip if visited, emit CREATE and
APPEND_CHILD and insert into the table on first mount, emit
SET_PROPERTY for every property, enqueue children, mark visited. -/
def reconcileLoop : List NodeRepr → List Int → MountTable → List Instr →
    List Instr × MountTable
  | [], _, table, instructions => (instructions, table)
  | n :: queue, visited, table, instructions =>
    if visited.contains n.hash then
      reconcileLoop queue visited table instructions
    else
      let step :=
        if MountTable.containsKey table n.hash then (instructions, table)
        else
          (instructions ++ (Instr.create n.hash n.kind ::
              n.children.map (fun c => Instr.appendChild n.hash c.hash c.output_channel)),
           MountTable.insert table n.hash (shallow_clone n))
      reconcileLoop (queue ++ n.children) (n.hash :: visited) step.2
        (step.1 ++ n.props.map (fun p => Instr.setProperty n.hash p.1 p.2))
termination_by q _ _ _ => (q.map sizeOf).sum
decreasing_by
  · have := NodeRepr.sizeOf_pos n
    simp only [List.map_cons, List.sum_cons]
    omega
  · have := children_sizeOf_lt n
    simp only [List.map_cons, List.sum_cons, List.map_append, List.sum_append]
    omega

/-- The comparator of the final `sort_by`: compare instructions by their
leading opcode (`a[0].as_i64().cmp(&b[0].as_i64())`). -/
def opLE (a b : Instr) : Bool :=
  decide (a.opcode ≤ b.opcode)

/-- Rust `RuntimeWrapper::reconcile` (`main.rs:68-138`): run the
traversal loop, append ACTIVATE_ROOTS over the root hashes and COMMIT,
then stable-sort by opcode (Rust's `sort_by` is stable; `mergeSort` is
the stable sort of the Lean library). -/
def reconcile (roots : List NodeRepr) (table : MountTable) :
    List Instr × MountTable :=
  let looped := reconcileLoop roots [] table []
  let full := looped.1 ++
    [Instr.activateRoots (roots.map NodeRepr.hash), Instr.commit]
  (full.mergeSort opLE, looped.2)

/-- The instructions one processed node contributes, given the table
state at the moment it is dequeued. -/
def emitNode (table : MountTable) (n : NodeRepr) : List Instr :=
  (if MountTable.containsKey table n.hash then []
   else Instr.create n.hash n.kind ::
     n.children.map (fun c => Instr.appendChild n.hash c.hash c.output_channel))
  ++ n.props.map (fun p => Instr.setProperty n.hash p.1 p.2)

/-- The table update one processed node performs. -/
def mountNode (table : MountTable) (n : NodeRepr) : MountTable :=
  if MountTable.containsKey table n.hash then table
  else MountTable.insert table n.hash (shallow_clone n)

/-- Instructions contributed by a list of processed nodes, threading the
table. -/
def emitList (table : MountTable) : List NodeRepr → List Instr
  | [] => []
  | n :: ns => emitNode table n ++ emitList (mountNode table n) ns

/-- Table state after a list of processed nodes. -/
def mountList (table : MountTable) : List NodeRepr → MountTable
  | [] => table
  | n :: ns => mountList (mountNode table n) ns

theorem reconcileLoop_eq (q : List NodeRepr) (v : List Int) :
    ∀ (t : MountTable) (i : List Instr),
      reconcileLoop q v t i =
        (i ++ emitList t (bfsOrder q v), mountList t (bfsOrder q v)) := by
  induction q, v using bfsOrder.induct with
  | case1 v =>
    intro t i
    simp [reconcileLoop, bfsOrder, emitList, mountList]
  | case2 n queue visited h ih =>
    intro t i
    rw [reconcileLoop, bfsOrder]
    simp only [h, if_true, ih]
  | case3 n queue visited h ih =>
    intro t i
    rw [reconcileLoop, bfsOrder]
    simp only [h, if_false, Bool.false_eq_true, if_neg, ih]
    by_cases hc : MountTable.containsKey t n.hash
    · simp [hc, emitList, mountList, emitNode, mountNode]
    · simp [hc, emitList, mountList, emitNode, mountNode]

/-- The instructions of one opcode class, in their order within `l`. -/
def classFilter (k : Nat) (l : List Instr) : List Instr :=
  l.filter (fun i => i.opcode == k)

/-- A batch rearranged into its opcode classes, each class keeping its
original relative order. -/
def joinClasses (l : List Instr) : List Instr :=
  classFilter 0 l ++ classFilter 2 l ++ classFilter 3 l ++
    classFilter 4 l ++ classFilter 5 l

theorem opLE_trans : ∀ (a b c : Instr), opLE a b → opLE b c → opLE a c := by
  intro a b c h1 h2
  simp only [opLE, decide_eq_true_eq] at h1 h2 ⊢
  omega

theorem opLE_total : ∀ (a b : Instr), opLE a b || opLE b a := by
  intro a b
  simp only [opLE, Bool.or_eq_true, decide_eq_true_eq]
  omega

theorem opcode_cases (i : Instr) :
    i.opcode = 0 ∨ i.opcode = 2 ∨ i.opcode = 3 ∨ i.opcode = 4 ∨ i.opcode = 5 := by
  cases i <;> simp [Instr.opcode]

theorem classFilter_cons (k : Nat) (x : Instr) (t : List Instr) :
    classFilter k (x :: t) =
      if x.opcode == k then x :: classFilter k t else classFilter k t := by
  simp [classFilter, List.filter_cons]

theorem classFilter_eq_nil_of_lt {k : Nat} {t : List Instr}
    (hk : ∀ i ∈ t, k < i.opcode) : classFilter k t = [] := by
  simp only [classFilter, List.filter_eq_nil_iff]
  intro i hi
  have := hk i hi
  simp only [beq_iff_eq]
  omega

theorem sorted_eq_joinClasses :
    ∀ {l : List Instr}, l.Pairwise (fun a b => opLE a b = true) → l = joinClasses l := by
  intro l h
  induction l with
  | nil => simp [joinClasses, classFilter]
  | cons x t ih =>
    rw [List.pairwise_cons] at h
    obtain ⟨hx, ht⟩ := h
    have ihe := ih ht
    have hxle : ∀ y ∈ t, x.opcode ≤ y.opcode := by
      intro y hy
      have := hx y hy
      simpa [opLE] using this
    rcases opcode_cases x with h0 | h0 | h0 | h0 | h0
    · have hR : joinClasses (x :: t) = x :: joinClasses t := by
        simp [joinClasses, classFilter_cons, h0]
      rw [hR, ← ihe]
    · have e0 : classFilter 0 t = [] :=
        classFilter_eq_nil_of_lt (fun i hi => by have := hxle i hi; omega)
      have hR : joinClasses (x :: t) = x :: joinClasses t := by
        simp [joinClasses, classFilter_cons, h0, e0]
      rw [hR, ← ihe]
    · have e0 : classFilter 0 t = [] :=
        classFilter_eq_nil_of_lt (fun i hi => by have := hxle i hi; omega)
      have e2 : classFilter 2 t = [] :=
        classFilter_eq_nil_of_lt (fun i hi => by have := hxle i hi; omega)
      have hR : joinClasses (x :: t) = x :: joinClasses t := by
        simp [joinClasses, classFilter_cons, h0, e0, e2]
      rw [hR, ← ihe]
    · have e0 : classFilter 0 t = [] :=
        classFilter_eq_nil_of_lt (fun i hi => by have := hxle i hi; omega)
      have e2 : classFilter 2 t = [] :=
        classFilter_eq_nil_of_lt (fun i hi => by have := hxle i hi; omega)
      have e3 : classFilter 3 t = [] :=
        classFilter_eq_nil_of_lt (fun i hi => by have := hxle i hi; omega)
      have hR : joinClasses (x :: t) = x :: joinClasses t := by
        simp [joinClasses, classFilter_cons, h0, e0, e2, e3]
      rw [hR, ← ihe]
    · have e0 : classFilter 0 t = [] :=
        classFilter_eq_nil_of_lt (fun i hi => by have := hxle i hi; omega)
      have e2 : classFilter 2 t = [] :=
        classFilter_eq_nil_of_lt (fun i hi => by have := hxle i hi; omega)
      have e3 : classFilter 3 t = [] :=
        classFilter_eq_nil_of_lt (fun i hi => by have := hxle i hi; omega)
      have e4 : classFilter 4 t = [] :=
        classFilter_eq_nil_of_lt (fun i hi => by have := hxle i hi; omega)
      have hR : joinClasses (x :: t) = x :: joinClasses t := by
        simp [joinClasses, classFilter_cons, h0, e0, e2, e3, e4]
      rw [hR, ← ihe]

theorem classFilter_mergeSort (k : Nat) (l : List Instr) :
    classFilter k (l.mergeSort opLE) = classFilter k l := by
  have hsub : List.Sublist (classFilter k l) l := List.filter_sublist l
  have hpw : (classFilter k l).Pairwise (fun a b => opLE a b = true) := by
    have hmem : ∀ i ∈ classFilter k l, i.opcode = k := by
      intro i hi
      simp only [classFilter] at hi
      have := (List.mem_filter.mp hi).2
      simpa using this
    apply List.pairwise_of_forall_mem_list
    intro a ha b hb
    simp [opLE, hmem a ha, hmem b hb]
  have hsub2 : List.Sublist (classFilter k l) (l.mergeSort opLE) :=
    List.sublist_mergeSort opLE_trans opLE_total hpw hsub
  have hself : (classFilter k l).filter (fun i => i.opcode == k) = classFilter k l := by
    apply List.filter_eq_self.mpr
    intro i hi
    simp only [classFilter] at hi
    exact (List.mem_filter.mp hi).2
  have hsub3 : List.Sublist (classFilter k l) (classFilter k (l.mergeSort opLE)) := by
    have := hsub2.filter (fun i => i.opcode == k)
    rwa [hself] at this
  have hperm : List.Perm (classFilter k (l.mergeSort opLE)) (classFilter k l) := by
    simp only [classFilter]
    exact (l.mergeSort_perm opLE).filter (fun i => i.opcode == k)
  exact (hsub3.eq_of_length hperm.length_eq.symm).symm

theorem mergeSort_joinClasses (l : List Instr) : l.mergeSort opLE = joinClasses l := by
  have hs : (l.mergeSort opLE).Pairwise (fun a b => opLE a b = true) :=
    List.sorted_mergeSort opLE_trans opLE_total l
  rw [sorted_eq_joinClasses hs]
  simp only [joinClasses, classFilter_mergeSort]

theorem classFilter_eq_nil_of_ne {k : Nat} {t : List Instr}
    (hk : ∀ i ∈ t, i.opcode ≠ k) : classFilter k t = [] := by
  simp only [classFilter, List.filter_eq_nil_iff]
  intro i hi
  simpa using hk i hi

theorem classFilter_append (k : Nat) (l₁ l₂ : List Instr) :
    classFilter k (l₁ ++ l₂) = classFilter k l₁ ++ classFilter k l₂ := by
  simp [classFilter]

theorem emitNode_opcode (t : MountTable) (n : NodeRepr) :
    ∀ i ∈ emitNode t n, i.opcode = 0 ∨ i.opcode = 2 ∨ i.opcode = 3 := by
  intro i hi
  simp only [emitNode, List.mem_append] at hi
  rcases hi with hi | hi
  · split at hi
    · simp at hi
    · simp only [List.mem_cons, List.mem_map] at hi
      rcases hi with rfl | ⟨c, _, rfl⟩
      · left; rfl
      · right; left; rfl
  · simp only [List.mem_map] at hi
    obtain ⟨p, _, rfl⟩ := hi
    right; right; rfl

theorem emitList_opcode :
    ∀ (ns : List NodeRepr) (t : MountTable), ∀ i ∈ emitList t ns,
      i.opcode = 0 ∨ i.opcode = 2 ∨ i.opcode = 3 := by
  intro ns
  induction ns with
  | nil => intro t i hi; simp [emitList] at hi
  | cons n ns ih =>
    intro t i hi
    simp only [emitList, List.mem_append] at hi
    rcases hi with hi | hi
    · exact emitNode_opcode t n i hi
    · exact ih (mountNode t n) i hi

/-- The batch produced by `reconcile` is exactly: the CREATE
instructions in emission order, then the APPEND_CHILD instructions in
emission order, then the SET_PROPERTY instructions in emission order,
then ACTIVATE_ROOTS over the root hashes, then COMMIT. -/
theorem reconcile_fst (roots : List NodeRepr) (t : MountTable) :
    (reconcile roots t).1 =
      classFilter 0 (emitList t (bfsOrder roots [])) ++
      classFilter 2 (emitList t (bfsOrder roots [])) ++
      classFilter 3 (emitList t (bfsOrder roots [])) ++
      [Instr.activateRoots (roots.map NodeRepr.hash), Instr.commit] := by
  have e4 : classFilter 4 (emitList t (bfsOrder roots [])) = [] :=
    classFilter_eq_nil_of_ne (fun i hi => by
      rcases emitList_opcode (bfsOrder roots []) t i hi with h | h | h <;> omega)
  have e5 : classFilter 5 (emitList t (bfsOrder roots [])) = [] :=
    classFilter_eq_nil_of_ne (fun i hi => by
      rcases emitList_opcode (bfsOrder roots []) t i hi with h | h | h <;> omega)
  unfold reconcile
  rw [reconcileLoop_eq]
  simp only [List.nil_append]
  rw [mergeSort_joinClasses]
  simp only [joinClasses, classFilter_append, e4, e5]
  simp [classFilter, Instr.opcode, List.filter_cons]

theorem reconcile_snd (roots : List NodeRepr) (t : MountTable) :
    (reconcile roots t).2 = mountList t (bfsOrder roots []) := by
  unfold reconcile
  rw [reconcileLoop_eq]

/-- Processed hashes are distinct and disjoint from the incoming
visited set: the visited check makes each hash processed at most
once. -/
theorem bfsOrder_nodup :
    ∀ (q : List NodeRepr) (v : List Int),
      ((bfsOrder q v).map NodeRepr.hash).Nodup ∧
        ∀ n ∈ bfsOrder q v, n.hash ∉ v := by
  intro q v
  induction q, v using bfsOrder.induct with
  | case1 v => simp [bfsOrder]
  | case2 n queue visited h ih =>
    rw [bfsOrder]
    simp only [h, if_true]
    exact ih
  | case3 n queue visited h ih =>
    rw [bfsOrder]
    simp only [h, Bool.false_eq_true, if_false]
    obtain ⟨ihnd, ihdisj⟩ := ih
    have hnv : n.hash ∉ visited := by
      intro hv
      exact h (List.elem_iff.mpr hv)
    refine ⟨?_, ?_⟩
    · simp only [List.map_cons, List.nodup_cons]
      refine ⟨?_, ihnd⟩
      intro hmem
      simp only [List.mem_map] at hmem
      obtain ⟨m, hm, he⟩ := hmem
      have := ihdisj m hm
      rw [he] at this
      exact this (List.mem_cons_self _ _)
    · intro m hm
      rcases List.mem_cons.mp hm with rfl | hm'
      · exact hnv
      · intro hv
        exact ihdisj m hm' (List.mem_cons_of_mem _ hv)

/-- The SET_PROPERTY instructions one node contributes: one per
`(name, value)` entry of its property map, in iteration order. -/
def propInstrs (n : NodeRepr) : List Instr :=
  n.props.map (fun p => Instr.setProperty n.hash p.1 p.2)

def Instr.isCreateOf (id : Int) : Instr → Bool
  | .create i _ => i == id
  | _ => false

def Instr.isAppendParentOf (id : Int) : Instr → Bool
  | .appendChild p _ _ => p == id
  | _ => false

def Instr.isAppendChildOf (id : Int) : Instr → Bool
  | .appendChild _ c _ => c == id
  | _ => false

def Instr.isSetPropertyOf (id : Int) : Instr → Bool
  | .setProperty i _ _ => i == id
  | _ => false

theorem containsKey_insert (t : MountTable) (k k' : Int) (v : ShallowNodeRepr) :
    MountTable.containsKey (MountTable.insert t k v) k' =
      (k == k' || MountTable.containsKey t k') := by
  simp [MountTable.containsKey, MountTable.insert]

theorem containsKey_mountNode (t : MountTable) (n : NodeRepr) (k : Int) :
    MountTable.containsKey (mountNode t n) k =
      (MountTable.containsKey t k || n.hash == k) := by
  unfold mountNode
  by_cases hc : MountTable.containsKey t n.hash
  · simp only [hc, if_true]
    by_cases he : n.hash = k
    · subst he
      simp [hc]
    · simp [he]
  · simp only [hc, Bool.false_eq_true, if_false]
    rw [containsKey_insert]
    rw [Bool.or_comm]

theorem containsKey_mountList :
    ∀ (ns : List NodeRepr) (t : MountTable) (k : Int),
      MountTable.containsKey (mountList t ns) k =
        (MountTable.containsKey t k || (ns.map NodeRepr.hash).contains k) := by
  intro ns
  induction ns with
  | nil => simp [mountList]
  | cons n ns ih =>
    intro t k
    simp only [mountList, ih, containsKey_mountNode, List.map_cons, List.contains_cons]
    cases MountTable.containsKey t k <;> cases h : n.hash == k <;>
      simp [BEq.comm] at h ⊢ <;> simp [h]

theorem containsKey_mountNode_mono {t : MountTable} {k : Int} (n : NodeRepr)
    (h : MountTable.containsKey t k = true) :
    MountTable.containsKey (mountNode t n) k = true := by
  rw [containsKey_mountNode, h, Bool.true_or]

theorem get?_mountNode {t : MountTable} {k : Int} (n : NodeRepr)
    (h : MountTable.containsKey t k = true) :
    MountTable.get? (mountNode t n) k = MountTable.get? t k := by
  unfold mountNode
  by_cases hc : MountTable.containsKey t n.hash
  · simp [hc]
  · simp only [hc, Bool.false_eq_true, if_false]
    have hne : (k == n.hash) = false := by
      by_contra hcon
      simp only [Bool.not_eq_false, beq_iff_eq] at hcon
      subst hcon
      exact hc h
    simp [MountTable.get?, MountTable.insert, List.lookup, hne]

theorem get?_mountList :
    ∀ (ns : List NodeRepr) (t : MountTable) (k : Int),
      MountTable.containsKey t k = true →
      MountTable.get? (mountList t ns) k = MountTable.get? t k := by
  intro ns
  induction ns with
  | nil => intro t k _; simp [mountList]
  | cons n ns ih =>
    intro t k h
    simp only [mountList]
    rw [ih (mountNode t n) k (containsKey_mountNode_mono n h)]
    exact get?_mountNode n h

/-- On a table where every processed hash is already mounted, each node
contributes only its SET_PROPERTY instructions. -/
theorem emitList_all_mounted :
    ∀ (ns : List NodeRepr) (t : MountTable),
      (∀ n ∈ ns, MountTable.containsKey t n.hash = true) →
      emitList t ns = ns.flatMap propInstrs := by
  intro ns
  induction ns with
  | nil => intro t _; simp [emitList]
  | cons n ns ih =>
    intro t h
    have hn : MountTable.containsKey t n.hash = true := h n (List.mem_cons_self _ _)
    have hm : mountNode t n = t := by simp [mountNode, hn]
    simp only [emitList, hm, List.flatMap_cons]
    rw [ih t (fun m hm' => h m (List.mem_cons_of_mem _ hm'))]
    simp [emitNode, hn, propInstrs]

theorem mem_classFilter_opcode {i : Instr} {k : Nat} {l : List Instr}
    (h : i ∈ classFilter k l) : i.opcode = k := by
  simp only [classFilter] at h
  have := (List.mem_filter.mp h).2
  simpa using this

theorem classFilter_eq_self {k : Nat} {l : List Instr}
    (h : ∀ i ∈ l, i.opcode = k) : classFilter k l = l := by
  simp only [classFilter]
  apply List.filter_eq_self.mpr
  intro i hi
  simp [h i hi]

theorem propInstrs_opcode {i : Instr} {ns : List NodeRepr}
    (h : i ∈ ns.flatMap propInstrs) : i.opcode = 3 := by
  simp only [List.mem_flatMap, propInstrs, List.mem_map] at h
  obtain ⟨n, _, p, _, rfl⟩ := h
  rfl

/-- Every batch contains exactly one ACTIVATE_ROOTS: the one listing the
hashes of the roots passed to this very call. -/
theorem reconcile_activate (roots : List NodeRepr) (t : MountTable) :
    (reconcile roots t).1.filter (fun i => i.opcode == 4) =
      [Instr.activateRoots (roots.map NodeRepr.hash)] := by
  rw [reconcile_fst]
  simp only [List.filter_append]
  have h0 : (classFilter 0 (emitList t (bfsOrder roots []))).filter
      (fun i => i.opcode == 4) = [] := by
    apply List.filter_eq_nil_iff.mpr
    intro i hi
    simp [mem_classFilter_opcode hi]
  have h2 : (classFilter 2 (emitList t (bfsOrder roots []))).filter
      (fun i => i.opcode == 4) = [] := by
    apply List.filter_eq_nil_iff.mpr
    intro i hi
    simp [mem_classFilter_opcode hi]
  have h3 : (classFilter 3 (emitList t (bfsOrder roots []))).filter
      (fun i => i.opcode == 4) = [] := by
    apply List.filter_eq_nil_iff.mpr
    intro i hi
    simp [mem_classFilter_opcode hi]
  rw [h0, h2, h3]
  simp [Instr.opcode, List.filter_cons]

/-- C1: for every input graph and table, the produced batch is sorted by
opcode class, and is precisely: the emitted CREATE instructions in
emission order, then the emitted APPEND_CHILD instructions in emission
order, then the emitted SET_PROPERTY instructions in emission order,
then the single ACTIVATE_ROOTS, then the single terminal COMMIT. -/
theorem batch_opcode_ordered_and_stable (roots : List NodeRepr) (table : MountTable) :
    (reconcile roots table).1.Pairwise (fun a b => a.opcode ≤ b.opcode) ∧
    (reconcile roots table).1 =
      classFilter 0 (emitList table (bfsOrder roots [])) ++
      classFilter 2 (emitList table (bfsOrder roots [])) ++
      classFilter 3 (emitList table (bfsOrder roots [])) ++
      [Instr.activateRoots (roots.map NodeRepr.hash), Instr.commit] := by
  constructor
  · have hs := List.sorted_mergeSort opLE_trans opLE_total
      ((reconcileLoop roots [] table []).1 ++
        [Instr.activateRoots (roots.map NodeRepr.hash), Instr.commit])
    have he : (reconcile roots table).1 =
        List.mergeSort ((reconcileLoop roots [] table []).1 ++
          [Instr.activateRoots (roots.map NodeRepr.hash), Instr.commit]) opLE := rfl
    rw [he]
    exact hs.imp (by intro a b hab; simpa [opLE] using hab)
  · exact reconcile_fst roots table

/-- C2: reconciling the same graph twice against the same table leaves,
on the second call, a batch with no CREATE and no APPEND_CHILD: exactly
one SET_PROPERTY per property of each distinct processed node id (the
first-dequeued occurrence of each hash), followed by ACTIVATE_ROOTS over
the root hashes and the terminal COMMIT; processed ids are pairwise
distinct. -/
theorem idempotent_remount (roots : List NodeRepr) (t : MountTable) :
    (reconcile roots ((reconcile roots t).2)).1 =
      (bfsOrder roots []).flatMap propInstrs ++
        [Instr.activateRoots (roots.map NodeRepr.hash), Instr.commit] ∧
    (reconcile roots ((reconcile roots t).2)).1.filter
      (fun i => i.opcode == 0) = [] ∧
    (reconcile roots ((reconcile roots t).2)).1.filter
      (fun i => i.opcode == 2) = [] ∧
    ((bfsOrder roots []).map NodeRepr.hash).Nodup := by
  have hmounted : ∀ n ∈ bfsOrder roots [],
      MountTable.containsKey ((reconcile roots t).2) n.hash = true := by
    intro n hn
    rw [reconcile_snd, containsKey_mountList]
    have hm : n.hash ∈ (bfsOrder roots []).map NodeRepr.hash :=
      List.mem_map_of_mem _ hn
    have : ((bfsOrder roots []).map NodeRepr.hash).contains n.hash = true :=
      List.elem_iff.mpr hm
    rw [this, Bool.or_true]
  have hE : emitList ((reconcile roots t).2) (bfsOrder roots []) =
      (bfsOrder roots []).flatMap propInstrs :=
    emitList_all_mounted _ _ hmounted
  have h0 : classFilter 0 ((bfsOrder roots []).flatMap propInstrs) = [] :=
    classFilter_eq_nil_of_ne (fun i hi => by rw [propInstrs_opcode hi]; omega)
  have h2 : classFilter 2 ((bfsOrder roots []).flatMap propInstrs) = [] :=
    classFilter_eq_nil_of_ne (fun i hi => by rw [propInstrs_opcode hi]; omega)
  have h3 : classFilter 3 ((bfsOrder roots []).flatMap propInstrs) =
      (bfsOrder roots []).flatMap propInstrs :=
    classFilter_eq_self (fun i hi => propInstrs_opcode hi)
  have hmain : (reconcile roots ((reconcile roots t).2)).1 =
      (bfsOrder roots []).flatMap propInstrs ++
        [Instr.activateRoots (roots.map NodeRepr.hash), Instr.commit] := by
    rw [reconcile_fst, hE, h0, h2, h3]
    simp
  refine ⟨hmain, ?_, ?_, (bfsOrder_nodup roots []).1⟩
  · rw [hmain]
    apply List.filter_eq_nil_iff.mpr
    intro i hi
    rcases List.mem_append.mp hi with hi' | hi'
    · simp [propInstrs_opcode hi']
    · rcases List.mem_cons.mp hi' with rfl | hi''
      · simp [Instr.opcode]
      · rcases List.mem_cons.mp hi'' with rfl | hi'''
        · simp [Instr.opcode]
        · simp at hi'''
  · rw [hmain]
    apply List.filter_eq_nil_iff.mpr
    intro i hi
    rcases List.mem_append.mp hi with hi' | hi'
    · simp [propInstrs_opcode hi']
    · rcases List.mem_cons.mp hi' with rfl | hi''
      · simp [Instr.opcode]
      · rcases List.mem_cons.mp hi'' with rfl | hi'''
        · simp [Instr.opcode]
        · simp at hi'''

/-- C4: after reconciling graph A and then graph B against the same
table, the second batch's single ACTIVATE_ROOTS carries exactly B's
root ids in the order supplied; in general, every batch's ACTIVATE_ROOTS
lists exactly the current call's root ids. -/
theorem activate_reflects_latest_roots (A B roots : List NodeRepr) (t t' : MountTable) :
    (reconcile B ((reconcile A t).2)).1.filter (fun i => i.opcode == 4) =
      [Instr.activateRoots (B.map NodeRepr.hash)] ∧
    (reconcile roots t').1.filter (fun i => i.opcode == 4) =
      [Instr.activateRoots (roots.map NodeRepr.hash)] :=
  ⟨reconcile_activate B ((reconcile A t).2), reconcile_activate roots t'⟩

/-- C6: the traversal is a total function of the input graph (its
defining recursion terminates because the summed sizes of the queued
subtrees strictly decrease), and each distinct id is processed — mount
check plus property emission — exactly once per call: the processed
hashes are pairwise distinct, and the loop's entire output is one
`emitNode` pass per processed node. -/
theorem traversal_terminates_each_id_once (roots : List NodeRepr) (t : MountTable) :
    ((bfsOrder roots []).map NodeRepr.hash).Nodup ∧
    reconcileLoop roots [] t [] =
      (emitList t (bfsOrder roots []), mountList t (bfsOrder roots [])) := by
  refine ⟨(bfsOrder_nodup roots []).1, ?_⟩
  rw [reconcileLoop_eq]
  simp

theorem reconcile_containsKey_mono (roots : List NodeRepr) (t : MountTable)
    (k : Int) (h : MountTable.containsKey t k = true) :
    MountTable.containsKey ((reconcile roots t).2) k = true := by
  rw [reconcile_snd, containsKey_mountList, h, Bool.true_or]

theorem reconcile_get?_preserved (roots : List NodeRepr) (t : MountTable)
    (k : Int) (h : MountTable.containsKey t k = true) :
    MountTable.get? ((reconcile roots t).2) k = MountTable.get? t k := by
  rw [reconcile_snd]
  exact get?_mountList _ t k h

/-- The mount table resulting from a sequence of reconcile calls. -/
def runCalls (t : MountTable) : List (List NodeRepr) → MountTable
  | [] => t
  | g :: gs => runCalls ((reconcile g t).2) gs

/-- C7: across any sequence of reconcile calls, an entry present in the
mount table is never removed and its stored value is never rewritten. -/
theorem mount_table_grow_only (gs : List (List NodeRepr)) (k : Int) :
    ∀ (t : MountTable), MountTable.containsKey t k = true →
      MountTable.containsKey (runCalls t gs) k = true ∧
      MountTable.get? (runCalls t gs) k = MountTable.get? t k := by
  induction gs with
  | nil => intro t h; exact ⟨h, rfl⟩
  | cons g gs ih =>
    intro t h
    have h1 := reconcile_containsKey_mono g t k h
    obtain ⟨ha, hb⟩ := ih ((reconcile g t).2) h1
    simp only [runCalls]
    exact ⟨ha, hb.trans (reconcile_get?_preserved g t k h)⟩

/-- A concrete mount table entry used to instantiate hypotheses. -/
def sampleEntry : ShallowNodeRepr :=
  { hash := 5, kind := "gain", props := [], output_channel := 0, children := [] }

theorem mount_table_grow_only_witness :
    MountTable.containsKey [(5, sampleEntry)] 5 = true ∧
    (MountTable.containsKey (runCalls [(5, sampleEntry)] [[]]) 5 = true ∧
     MountTable.get? (runCalls [(5, sampleEntry)] [[]]) 5 =
       MountTable.get? [(5, sampleEntry)] 5) :=
  ⟨by rfl, mount_table_grow_only [[]] 5 [(5, sampleEntry)] (by rfl)⟩

/-- The single-root graph of the spec's concrete scenario:
`{id:1, kind:"sine", props:{freq:440}, outputChannel:0, children:[]}`. -/
def sineNode : NodeRepr :=
  NodeRepr.mk 1 "sine" [("freq", JsonValue.num 440)] 0 []

/-- C5: reconciling the single sine node against an empty table yields
exactly CREATE(1,"sine"), SET_PROPERTY(1,"freq",440), ACTIVATE_ROOTS([1]),
COMMIT, in that order. -/
theorem single_sine_scenario :
    (reconcile [sineNode] []).1 =
      [Instr.create 1 "sine",
       Instr.setProperty 1 "freq" (JsonValue.num 440),
       Instr.activateRoots [1],
       Instr.commit] := by
  have hb : bfsOrder [sineNode] [] = [sineNode] := by
    rw [bfsOrder]
    simp [sineNode, NodeRepr.hash, NodeRepr.children, bfsOrder]
  rw [reconcile_fst, hb]
  rfl

theorem emitList_mounted_filter_nil :
    ∀ (ns : List NodeRepr) (t : MountTable) (id : Int),
      MountTable.containsKey t id = true →
      (emitList t ns).filter
        (fun i => Instr.isCreateOf id i || Instr.isAppendParentOf id i) = [] := by
  intro ns
  induction ns with
  | nil => intro t id _; simp [emitList]
  | cons n ns ih =>
    intro t id h
    simp only [emitList, List.filter_append]
    rw [ih (mountNode t n) id (containsKey_mountNode_mono n h)]
    rw [List.append_nil]
    apply List.filter_eq_nil_iff.mpr
    intro i hi
    simp only [emitNode, List.mem_append] at hi
    rcases hi with hi | hi
    · by_cases hc : MountTable.containsKey t n.hash
      · simp [hc] at hi
      · have hne : (n.hash == id) = false := by
          by_contra hcon
          simp only [Bool.not_eq_false, beq_iff_eq] at hcon
          rw [hcon] at hc
          exact hc h
        simp only [hc, Bool.false_eq_true, if_false, List.mem_cons, List.mem_map] at hi
        rcases hi with rfl | ⟨c, _, rfl⟩
        · simp [Instr.isCreateOf, Instr.isAppendParentOf, hne]
        · simp [Instr.isCreateOf, Instr.isAppendParentOf, hne]
    · simp only [List.mem_map] at hi
      obtain ⟨p, _, rfl⟩ := hi
      simp [Instr.isCreateOf, Instr.isAppendParentOf]

theorem emitList_unmounted_create :
    ∀ (ns : List NodeRepr) (t : MountTable),
      ((ns.map NodeRepr.hash).Nodup) →
      ∀ n ∈ ns, MountTable.containsKey t n.hash = false →
        Instr.create n.hash n.kind ∈ emitList t ns := by
  intro ns
  induction ns with
  | nil => intro t _ n hn; simp at hn
  | cons n0 ns ih =>
    intro t hnd n hn hcon
    simp only [List.map_cons, List.nodup_cons] at hnd
    obtain ⟨hh, hnd'⟩ := hnd
    simp only [emitList, List.mem_append]
    rcases List.mem_cons.mp hn with rfl | hn'
    · left
      simp [emitNode, hcon]
    · right
      have hne : (n0.hash == n.hash) = false := by
        by_contra hcon2
        simp only [Bool.not_eq_false, beq_iff_eq] at hcon2
        exact hh (hcon2 ▸ List.mem_map_of_mem NodeRepr.hash hn')
      have hmk : MountTable.containsKey (mountNode t n0) n.hash = false := by
        rw [containsKey_mountNode, hcon, hne]
        rfl
      exact ih (mountNode t n0) hnd' n hn' hmk

/-- C10: if an id is present in the table when a call starts, the batch
contains no CREATE for it and no APPEND_CHILD with it as parent; yet
every node the traversal processes whose hash is unmounted — including
children newly listed under already-mounted parents — does get a
CREATE. -/
theorem mounted_id_emits_no_create_or_append (roots : List NodeRepr)
    (t : MountTable) (id : Int) (h : MountTable.containsKey t id = true) :
    (reconcile roots t).1.filter
        (fun i => Instr.isCreateOf id i || Instr.isAppendParentOf id i) = [] ∧
    ∀ n ∈ bfsOrder roots [], MountTable.containsKey t n.hash = false →
      Instr.create n.hash n.kind ∈ (reconcile roots t).1 := by
  have hnil := emitList_mounted_filter_nil (bfsOrder roots []) t id h
  constructor
  · rw [reconcile_fst]
    simp only [List.filter_append]
    have sub0 : List.Sublist
        ((classFilter 0 (emitList t (bfsOrder roots []))).filter
          (fun i => Instr.isCreateOf id i || Instr.isAppendParentOf id i))
        ((emitList t (bfsOrder roots [])).filter
          (fun i => Instr.isCreateOf id i || Instr.isAppendParentOf id i)) :=
      List.Sublist.filter _ (List.filter_sublist _)
    have sub2 : List.Sublist
        ((classFilter 2 (emitList t (bfsOrder roots []))).filter
          (fun i => Instr.isCreateOf id i || Instr.isAppendParentOf id i))
        ((emitList t (bfsOrder roots [])).filter
          (fun i => Instr.isCreateOf id i || Instr.isAppendParentOf id i)) :=
      List.Sublist.filter _ (List.filter_sublist _)
    have sub3 : List.Sublist
        ((classFilter 3 (emitList t (bfsOrder roots []))).filter
          (fun i => Instr.isCreateOf id i || Instr.isAppendParentOf id i))
        ((emitList t (bfsOrder roots [])).filter
          (fun i => Instr.isCreateOf id i || Instr.isAppendParentOf id i)) :=
      List.Sublist.filter _ (List.filter_sublist _)
    rw [hnil] at sub0 sub2 sub3
    rw [List.sublist_nil.mp sub0, List.sublist_nil.mp sub2, List.sublist_nil.mp sub3]
    simp [Instr.isCreateOf, Instr.isAppendParentOf, List.filter_cons]
  · intro n hn hcon
    have hmem : Instr.create n.hash n.kind ∈ emitList t (bfsOrder roots []) :=
      emitList_unmounted_create (bfsOrder roots []) t (bfsOrder_nodup roots []).1
        n hn hcon
    rw [reconcile_fst]
    simp only [List.mem_append]
    left; left; left
    simp only [classFilter, List.mem_filter]
    exact ⟨hmem, by simp [Instr.opcode]⟩

theorem mounted_id_emits_no_create_or_append_witness :
    MountTable.containsKey [(5, sampleEntry)] 5 = true ∧
    ((reconcile [sineNode] [(5, sampleEntry)]).1.filter
        (fun i => Instr.isCreateOf 5 i || Instr.isAppendParentOf 5 i) = [] ∧
     ∀ n ∈ bfsOrder [sineNode] [],
       MountTable.containsKey [(5, sampleEntry)] n.hash = false →
       Instr.create n.hash n.kind ∈ (reconcile [sineNode] [(5, sampleEntry)]).1) :=
  ⟨by rfl, mounted_id_emits_no_create_or_append [sineNode] [(5, sampleEntry)] 5 (by rfl)⟩

/-- C3: with two roots (ids 1 and 2) each listing the same child of id
7, against a table mounting none of the three ids, the batch holds
exactly one CREATE for id 7, exactly one SET_PROPERTY per property of
node 7, and exactly two APPEND_CHILD instructions referencing id 7 as
child — one per parent. -/
theorem shared_child_dedup (k1 k2 k7 : String)
    (p1 p2 p7 : List (String × JsonValue)) (o1 o2 o7 : Nat) (t : MountTable)
    (h1 : MountTable.containsKey t 1 = false)
    (h2 : MountTable.containsKey t 2 = false)
    (h7 : MountTable.containsKey t 7 = false) :
    (reconcile [NodeRepr.mk 1 k1 p1 o1 [NodeRepr.mk 7 k7 p7 o7 []],
                NodeRepr.mk 2 k2 p2 o2 [NodeRepr.mk 7 k7 p7 o7 []]] t).1.filter
        (Instr.isCreateOf 7) = [Instr.create 7 k7] ∧
    (reconcile [NodeRepr.mk 1 k1 p1 o1 [NodeRepr.mk 7 k7 p7 o7 []],
                NodeRepr.mk 2 k2 p2 o2 [NodeRepr.mk 7 k7 p7 o7 []]] t).1.filter
        (Instr.isSetPropertyOf 7) =
      p7.map (fun p => Instr.setProperty 7 p.1 p.2) ∧
    (reconcile [NodeRepr.mk 1 k1 p1 o1 [NodeRepr.mk 7 k7 p7 o7 []],
                NodeRepr.mk 2 k2 p2 o2 [NodeRepr.mk 7 k7 p7 o7 []]] t).1.filter
        (Instr.isAppendChildOf 7) =
      [Instr.appendChild 1 7 o7, Instr.appendChild 2 7 o7] := by
  have hb : bfsOrder [NodeRepr.mk 1 k1 p1 o1 [NodeRepr.mk 7 k7 p7 o7 []],
      NodeRepr.mk 2 k2 p2 o2 [NodeRepr.mk 7 k7 p7 o7 []]] [] =
      [NodeRepr.mk 1 k1 p1 o1 [NodeRepr.mk 7 k7 p7 o7 []],
       NodeRepr.mk 2 k2 p2 o2 [NodeRepr.mk 7 k7 p7 o7 []],
       NodeRepr.mk 7 k7 p7 o7 []] := by
    rw [bfsOrder]
    simp only [NodeRepr.hash, NodeRepr.children, List.contains_nil,
      Bool.false_eq_true, if_false, List.nil_append, List.cons_append]
    rw [bfsOrder]
    norm_num [NodeRepr.hash, NodeRepr.children]
    rw [bfsOrder]
    norm_num [NodeRepr.hash, NodeRepr.children]
    rw [bfsOrder]
    norm_num [NodeRepr.hash]
    rw [bfsOrder]
  have hc2 : MountTable.containsKey
      (mountNode t (NodeRepr.mk 1 k1 p1 o1 [NodeRepr.mk 7 k7 p7 o7 []])) 2 = false := by
    rw [containsKey_mountNode, h2, NodeRepr.hash]
    rfl
  have hc7 : MountTable.containsKey
      (mountNode (mountNode t (NodeRepr.mk 1 k1 p1 o1 [NodeRepr.mk 7 k7 p7 o7 []]))
        (NodeRepr.mk 2 k2 p2 o2 [NodeRepr.mk 7 k7 p7 o7 []])) 7 = false := by
    rw [containsKey_mountNode, containsKey_mountNode, h7, NodeRepr.hash, NodeRepr.hash]
    rfl
  have hE : emitList t (bfsOrder [NodeRepr.mk 1 k1 p1 o1 [NodeRepr.mk 7 k7 p7 o7 []],
      NodeRepr.mk 2 k2 p2 o2 [NodeRepr.mk 7 k7 p7 o7 []]] []) =
      ([Instr.create 1 k1, Instr.appendChild 1 7 o7] ++
        p1.map (fun p => Instr.setProperty 1 p.1 p.2)) ++
      (([Instr.create 2 k2, Instr.appendChild 2 7 o7] ++
        p2.map (fun p => Instr.setProperty 2 p.1 p.2)) ++
      (([Instr.create 7 k7] ++
        p7.map (fun p => Instr.setProperty 7 p.1 p.2)) ++ [])) := by
    rw [hb]
    simp only [emitList, emitNode, NodeRepr.hash, NodeRepr.children, NodeRepr.props,
      NodeRepr.output_channel, h1, hc2, hc7, Bool.false_eq_true, if_false,
      List.map_cons, List.map_nil]
    rfl
  rw [reconcile_fst, hE]
  refine ⟨?_, ?_, ?_⟩ <;>
    simp [classFilter, List.filter_append, List.filter_map, Function.comp,
      Instr.opcode, Instr.isCreateOf, Instr.isSetPropertyOf, Instr.isAppendChildOf,
      List.filter_cons]

theorem shared_child_dedup_witness :
    (MountTable.containsKey [] 1 = false ∧ MountTable.containsKey [] 2 = false ∧
      MountTable.containsKey [] 7 = false) ∧
    ((reconcile [NodeRepr.mk 1 "a" [] 0 [NodeRepr.mk 7 "c" [("x", JsonValue.num 1)] 0 []],
                 NodeRepr.mk 2 "b" [] 0 [NodeRepr.mk 7 "c" [("x", JsonValue.num 1)] 0 []]]
        []).1.filter (Instr.isCreateOf 7) = [Instr.create 7 "c"] ∧
     (reconcile [NodeRepr.mk 1 "a" [] 0 [NodeRepr.mk 7 "c" [("x", JsonValue.num 1)] 0 []],
                 NodeRepr.mk 2 "b" [] 0 [NodeRepr.mk 7 "c" [("x", JsonValue.num 1)] 0 []]]
        []).1.filter (Instr.isSetPropertyOf 7) =
       [("x", JsonValue.num 1)].map (fun p => Instr.setProperty 7 p.1 p.2) ∧
     (reconcile [NodeRepr.mk 1 "a" [] 0 [NodeRepr.mk 7 "c" [("x", JsonValue.num 1)] 0 []],
                 NodeRepr.mk 2 "b" [] 0 [NodeRepr.mk 7 "c" [("x", JsonValue.num 1)] 0 []]]
        []).1.filter (Instr.isAppendChildOf 7) =
       [Instr.appendChild 1 7 0, Instr.appendChild 2 7 0]) :=
  ⟨⟨rfl, rfl, rfl⟩,
   shared_child_dedup "a" "b" "c" [] [] [("x", JsonValue.num 1)] 0 0 0 [] rfl rfl rfl⟩

/-- Field lookup in a parsed JSON object, as the derived deserializer
sees it.  The serde derive reads fields in input order and rejects
duplicates; for the success/failure behaviour stated here, looking up
the first occurrence of each required name is equivalent on objects
without duplicate keys. -/
def jfield (fields : List (String × JsonValue)) (name : String) : Option JsonValue :=
  match fields.find? (fun f => f.1 == name) with
  | some f => some f.2
  | none => none

/-- Deserialize an `i32` field: an integral JSON number in range. -/
def asI32 : JsonValue → Option Int
  | .num n => if -2147483648 ≤ n ∧ n < 2147483648 then some n else none
  | _ => none

/-- Deserialize a `u32` field: an integral JSON number in range. -/
def asU32 : JsonValue → Option Nat
  | .num n => if 0 ≤ n ∧ n < 4294967296 then some n.toNat else none
  | _ => none

def asStr : JsonValue → Option String
  | .str s => some s
  | _ => none

def asObj : JsonValue → Option (List (String × JsonValue))
  | .obj fields => some fields
  | _ => none

def asArr : JsonValue → Option (List JsonValue)
  | .arr elems => some elems
  | _ => none

theorem jfield_sizeOf {fields : List (String × JsonValue)} {name : String}
    {v : JsonValue} (h : jfield fields name = some v) : sizeOf v < sizeOf fields := by
  unfold jfield at h
  cases hf : fields.find? (fun f => f.1 == name) with
  | none => rw [hf] at h; cases h
  | some f =>
    rw [hf] at h
    obtain ⟨a, b⟩ := f
    cases h
    have hmem : (a, b) ∈ fields := List.mem_of_find?_eq_some hf
    have := List.sizeOf_lt_of_mem hmem
    simp only [Prod.mk.sizeOf_spec] at this
    show sizeOf b < sizeOf fields
    omega

theorem asArr_sizeOf {v : JsonValue} {l : List JsonValue}
    (h : asArr v = some l) : sizeOf l < sizeOf v := by
  cases v with
  | arr elems =>
    simp only [asArr, Option.some.injEq] at h
    subst h
    simp only [JsonValue.arr.sizeOf_spec]
    omega
  | null => simp [asArr] at h
  | bool b => simp [asArr] at h
  | num n => simp [asArr] at h
  | str s => simp [asArr] at h
  | obj fields => simp [asArr] at h

mutual
/-- The derived `Deserialize` for `struct NodeRepr` (`main.rs:11-18`):
a JSON object is accepted exactly when it carries fields named `hash`
(i32), `kind` (string), `props` (object), `output_channel` (u32) and
`children` (array of nodes); unknown extra fields are ignored.  Note
the wire names come from the Rust field identifiers. -/
def parseNodeRepr : JsonValue → Option NodeRepr
  | JsonValue.obj fields =>
    match hc : Option.bind (jfield fields "children") asArr with
    | none => none
    | some cs =>
      match parseNodeList cs with
      | none => none
      | some children =>
        match Option.bind (jfield fields "hash") asI32,
              Option.bind (jfield fields "kind") asStr,
              Option.bind (jfield fields "props") asObj,
              Option.bind (jfield fields "output_channel") asU32 with
        | some h, some k, some p, some oc =>
          some (NodeRepr.mk h k p oc children)
        | _, _, _, _ => none
  | _ => none
termination_by j => sizeOf j
decreasing_by
  obtain ⟨v, hv1, hv2⟩ := Option.bind_eq_some.mp hc
  have l1 := jfield_sizeOf hv1
  have l2 := asArr_sizeOf hv2
  simp only [JsonValue.obj.sizeOf_spec]
  omega

/-- Deserialize a `Vec<NodeRepr>` element by element; the first failure
rejects the whole vector. -/
def parseNodeList : List JsonValue → Option (List NodeRepr)
  | [] => some []
  | c :: cs =>
    match parseNodeRepr c, parseNodeList cs with
    | some n, some ns => some (n :: ns)
    | _, _ => none
termination_by l => sizeOf l
decreasing_by
  · simp only [List.cons.sizeOf_spec]; omega
  · simp only [List.cons.sizeOf_spec]; omega
end

/-- Rust `struct Directive { graph: Option<Vec<NodeRepr>> }`. -/
structure Directive where
  graph : Option (List NodeRepr)

/-- The derived `Deserialize` for `Directive`: a JSON object whose
`graph` field, when present and non-null, must be an array of nodes; a
missing or null `graph` yields a directive with no graph. -/
def parseDirective : JsonValue → Option Directive
  | JsonValue.obj fields =>
    match jfield fields "graph" with
    | none => some { graph := none }
    | some JsonValue.null => some { graph := none }
    | some (JsonValue.arr xs) =>
      match parseNodeList xs with
      | none => none
      | some g => some { graph := some g }
    | some _ => none
  | _ => none

/-- Parsing one inbound text message,
`serde_json::from_str(text).unwrap_or(Directive { graph: None })`
(`main.rs:192-193`).  A message that is not a valid JSON document is
embedded as `none`; any deserialization failure degrades to the
directive with no graph. -/
def parseMessage (msg : Option JsonValue) : Directive :=
  match msg with
  | none => { graph := none }
  | some j => (parseDirective j).getD { graph := none }

/-- One text-directive step of the per-connection session loop
(`main.rs:187-209`): parse the message; when it carries a graph,
reconcile against the session's table and apply the resulting batch to
the engine; otherwise leave the table untouched and apply nothing.
Returns the updated table and the batch submitted to the engine, if
any.  The step is a total function: a malformed directive is not an
error path, the session continues. -/
def sessionStep (table : MountTable) (msg : Option JsonValue) :
    MountTable × Option (List Instr) :=
  match (parseMessage msg).graph with
  | some graph =>
    let r := reconcile graph table
    (r.2, some r.1)
  | none => (table, none)

/-- C9: a message that is not valid JSON for the directive schema, or
whose directive lacks a graph, leads to no reconcile and no engine
apply: the step returns the table unchanged and submits nothing. -/
theorem malformed_directive_noop (t : MountTable) (msg : Option JsonValue)
    (h : msg = none ∨ ∃ j, msg = some j ∧
      (parseDirective j = none ∨ parseDirective j = some { graph := none })) :
    sessionStep t msg = (t, none) := by
  rcases h with rfl | ⟨j, rfl, hj⟩
  · rfl
  · rcases hj with hj | hj <;> simp [sessionStep, parseMessage, hj]

theorem malformed_directive_noop_witness :
    (some (JsonValue.obj []) = none ∨ ∃ j, some (JsonValue.obj []) = some j ∧
      (parseDirective j = none ∨ parseDirective j = some { graph := none })) ∧
    sessionStep [(5, sampleEntry)] (some (JsonValue.obj [])) =
      ([(5, sampleEntry)], none) :=
  ⟨Or.inr ⟨JsonValue.obj [], rfl, Or.inr rfl⟩,
   malformed_directive_noop [(5, sampleEntry)] (some (JsonValue.obj []))
     (Or.inr ⟨JsonValue.obj [], rfl, Or.inr rfl⟩)⟩

/-- A node written with the published schema's field names
(`id`, `outputChannel`) rather than the wire names the derived
deserializer expects (`hash`, `output_channel`). -/
def specSchemaNode : JsonValue :=
  JsonValue.obj [("id", JsonValue.num 1), ("kind", JsonValue.str "sine"),
    ("props", JsonValue.obj []), ("outputChannel", JsonValue.num 0),
    ("children", JsonValue.arr [])]

def specSchemaDirective : JsonValue :=
  JsonValue.obj [("graph", JsonValue.arr [specSchemaNode])]

theorem parseNodeList_nil : parseNodeList [] = some [] := by
  rw [parseNodeList]

theorem parseNodeRepr_obj (fields : List (String × JsonValue)) :
    parseNodeRepr (JsonValue.obj fields) =
      match Option.bind (jfield fields "children") asArr with
      | none => none
      | some cs =>
        match parseNodeList cs with
        | none => none
        | some children =>
          match Option.bind (jfield fields "hash") asI32,
                Option.bind (jfield fields "kind") asStr,
                Option.bind (jfield fields "props") asObj,
                Option.bind (jfield fields "output_channel") asU32 with
          | some h, some k, some p, some oc =>
            some (NodeRepr.mk h k p oc children)
          | _, _, _, _ => none := by
  rw [parseNodeRepr]
  cases hc : Option.bind (jfield fields "children") asArr with
  | none => rfl
  | some cs => rfl

/-- A directive whose nodes use the published schema's field names is
rejected by the node deserializer and therefore degraded to the
no-graph case, contrary to the published schema. -/
theorem published_schema_names_rejected :
    parseNodeRepr specSchemaNode = none ∧
    parseMessage (some specSchemaDirective) = { graph := none } := by
  have hn : parseNodeRepr specSchemaNode = none := by
    unfold specSchemaNode
    rw [parseNodeRepr_obj]
    simp [jfield, List.find?, asArr, asStr, asObj, parseNodeList_nil]
  have hl : parseNodeList [specSchemaNode] = none := by
    rw [parseNodeList, hn, parseNodeList_nil]
  refine ⟨hn, ?_⟩
  simp [parseMessage, parseDirective, specSchemaDirective, jfield, List.find?, hl]

/-- C8 (amended): a node object carrying exactly the wire field names
and types — hash: integer (in i32 range), kind: string, props: object,
output_channel: integer (in u32 range), children: array of nodes —
parses successfully, and a directive whose graph is an array of such
nodes parses into a Directive carrying that graph. -/
theorem wire_schema_parses (hv : Int) (k : String) (p : List (String × JsonValue))
    (oc : Int) (cs : List JsonValue) (ns : List NodeRepr)
    (hlo : -2147483648 ≤ hv) (hhi : hv < 2147483648)
    (hoclo : 0 ≤ oc) (hochi : oc < 4294967296)
    (hcs : parseNodeList cs = some ns) :
    parseNodeRepr (JsonValue.obj
      [("hash", JsonValue.num hv), ("kind", JsonValue.str k),
       ("props", JsonValue.obj p), ("output_channel", JsonValue.num oc),
       ("children", JsonValue.arr cs)]) =
      some (NodeRepr.mk hv k p oc.toNat ns) ∧
    ∀ (gs : List JsonValue) (g : List NodeRepr), parseNodeList gs = some g →
      parseDirective (JsonValue.obj [("graph", JsonValue.arr gs)]) =
        some { graph := some g } := by
  constructor
  · rw [parseNodeRepr_obj]
    have hI : asI32 (JsonValue.num hv) = some hv := by
      simp only [asI32]
      exact if_pos ⟨hlo, hhi⟩
    have hU : asU32 (JsonValue.num oc) = some oc.toNat := by
      simp only [asU32]
      exact if_pos ⟨hoclo, hochi⟩
    simp [jfield, List.find?, asArr, asStr, asObj, hI, hU, hcs]
  · intro gs g hg
    simp [parseDirective, jfield, List.find?, hg]

theorem wire_schema_parses_witness :
    ((-2147483648 : Int) ≤ 1 ∧ (1 : Int) < 2147483648 ∧ (0 : Int) ≤ 0 ∧
      (0 : Int) < 4294967296 ∧ parseNodeList [] = some []) ∧
    (parseNodeRepr (JsonValue.obj
      [("hash", JsonValue.num 1), ("kind", JsonValue.str "sine"),
       ("props", JsonValue.obj [("freq", JsonValue.num 440)]),
       ("output_channel", JsonValue.num 0),
       ("children", JsonValue.arr [])]) =
      some (NodeRepr.mk 1 "sine" [("freq", JsonValue.num 440)] (0 : Int).toNat []) ∧
    ∀ (gs : List JsonValue) (g : List NodeRepr), parseNodeList gs = some g →
      parseDirective (JsonValue.obj [("graph", JsonValue.arr gs)]) =
        some { graph := some g }) :=
  ⟨⟨by norm_num, by norm_num, le_refl 0, by norm_num, parseNodeList_nil⟩,
   wire_schema_parses 1 "sine" [("freq", JsonValue.num 440)] 0 [] []
     (by norm_num) (by norm_num) (le_refl 0) (by norm_num) parseNodeList_nil⟩

end Elementary
